import Mathlib

/-!
Verification of the timeline recalibration engine of the Clientchecklist
repository (src/src/pages/ClientView.tsx, recalculation edge function).

Modelling conventions (shallow embedding of the TypeScript source):

* Calendar dates are epoch day numbers (`Int`, days since 1970-01-01).
  The source exchanges dates as `YYYY-MM-DD` strings and as JS `Date`
  objects anchored at midnight; converting a day number to its ISO string
  and back is the identity, so the string round trips
  (`toISOString().split('T')[0]`, `new Date(s)`) are identities here.
* JS `number` arithmetic on the fractional quantities (scale factor,
  stride, month offsets) is modelled exactly by `ℚ` using the core `Rat`
  operations; `Math.floor`/`Math.ceil` become `Rat.floor`/`Rat.ceil`, and
  the implicit `ToIntegerOrInfinity` truncation of `Date.setMonth` becomes
  `jsTrunc`.
* JS `Date` month arithmetic (`setMonth`) is modelled with the proleptic
  Gregorian civil-calendar conversions `daysFromCivil`/`civilFromDays`,
  mirroring ECMAScript `MakeDay` (year/month normalisation, day-of-month
  overflow carried over).
* `Array.prototype.sort` with a consistent comparator is the unique stable
  sort, modelled by the stable insertion sort `jsSort`.
* A JS `Map` is an association list with first-insertion key order and
  last-write value semantics (`mapSet`, `mapOfList`).
-/

namespace ClientView

/-- Task record, from the `Task` interface of the source.  Optional JS
fields become `Option`/`Bool` with `false` for a missing flag.  `block_id`
is present on the database rows and read by the handler when grouping
tasks into blocks. -/
structure Task where
  id : String
  title : String
  weight : Int
  is_skeleton : Bool
  locked : Bool
  due_date : Option Int
  done : Bool
  depends_on_task_ids : Option (List String)
  order : Int
  block_id : String
deriving Repr, DecidableEq

/-- Block record, from the `Block` interface of the source. -/
structure Block where
  id : String
  key : String
  title : String
  order : Int
  start_date : Option Int
  end_date : Option Int
  tasks : List Task
deriving Repr, DecidableEq

/-- One element of the list returned by `recalculateBlockDates`. -/
structure BlockOut where
  id : String
  start_date : Int
  end_date : Int
deriving Repr, DecidableEq

/-- Gregorian civil date to epoch day number (ECMAScript `MakeDay` core). -/
def daysFromCivil (y m d : Int) : Int :=
  let y' := if m ≤ 2 then y - 1 else y
  let era := Int.fdiv y' 400
  let yoe := y' - era * 400
  let mp := if m > 2 then m - 3 else m + 9
  let doy := Int.fdiv (153 * mp + 2) 5 + d - 1
  let doe := yoe * 365 + Int.fdiv yoe 4 - Int.fdiv yoe 100 + doy
  era * 146097 + doe - 719468

/-- Epoch day number to Gregorian civil date (year, month 1..12, day). -/
def civilFromDays (z : Int) : Int × Int × Int :=
  let z' := z + 719468
  let era := Int.fdiv z' 146097
  let doe := z' - era * 146097
  let yoe := Int.fdiv (doe - Int.fdiv doe 1460 + Int.fdiv doe 36524 - Int.fdiv doe 146096) 365
  let y := yoe + era * 400
  let doy := doe - (365 * yoe + Int.fdiv yoe 4 - Int.fdiv yoe 100)
  let mp := Int.fdiv (5 * doy + 2) 153
  let d := doy - Int.fdiv (153 * mp + 2) 5 + 1
  let m := if mp < 10 then mp + 3 else mp - 9
  (if m ≤ 2 then y + 1 else y, m, d)

/-- ECMAScript `ToIntegerOrInfinity`: truncation of a number toward zero
(applied by `Date.setMonth` to its argument). -/
def jsTrunc (q : ℚ) : Int := if 0 ≤ q.num then Rat.floor q else Rat.ceil q

/-- `addMonths(date, months)` of the source: `result.setMonth(result.getMonth() - months)`.
JS `getMonth` is 0-based; `setMonth` truncates its argument to an integer
and normalises year/month while keeping the day-of-month (overflow rolls
into the next month, as in ECMAScript `MakeDay`). -/
def addMonths (date : Int) (months : ℚ) : Int :=
  let c := civilFromDays date
  let mi := jsTrunc (Rat.sub (Rat.ofInt (c.2.1 - 1)) months)
  let ym := c.1 + Int.fdiv mi 12
  let mn := Int.emod mi 12
  daysFromCivil ym (mn + 1) c.2.2

/-- JS `Date.getDay()`: day of week, 0 = Sunday (1970-01-01 was a Thursday). -/
def getDay (date : Int) : Int := Int.emod (date + 4) 7

/-- `roundToWeek(date)` of the source: snap back to the most recent Sunday. -/
def roundToWeek (date : Int) : Int :=
  let day := getDay date
  let diff := if day = 0 then 0 else day
  date - diff

/-- `calculateLeadTimeMonths(eventDate, today)` of the source.  `daysBetween`
is the exact day difference (both dates are midnight-anchored, so the JS
`Math.ceil` of the millisecond quotient is exact). -/
def calculateLeadTimeMonths (eventDate today : Int) : Int :=
  let daysBetween := eventDate - today
  max (Rat.ceil (Rat.divInt daysBetween 30)) 0

/-- `calculateScaleFactor(leadTimeMonths, canonicalMonths = 12)` of the source. -/
def calculateScaleFactor (leadTimeMonths : Int) (canonicalMonths : Int := 12) : ℚ :=
  Rat.div (Rat.ofInt leadTimeMonths) (Rat.ofInt canonicalMonths)

/-- `CANONICAL_BLOCKS` table of the source, in object-entry order. -/
def CANONICAL_BLOCKS : List (String × ℚ × ℚ) :=
  [("12m", (12, 10)), ("8-10m", (10, 8)), ("6-8m", (8, 6)), ("4-6m", (6, 4)),
   ("3-4m", (4, 3)), ("1-2m", (2, 1)), ("2w", (Rat.divInt 1 2, 0))]

/-- Substring test on character lists (JS `String.prototype.includes`). -/
def listHasInfix (pat : List Char) : List Char → Bool
  | [] => pat.isEmpty
  | c :: t => pat.isPrefixOf (c :: t) || listHasInfix pat t

/-- JS `s.includes(pat)`. -/
def jsIncludes (s pat : String) : Bool := listHasInfix pat.toList s.toList

/-- JS `toLowerCase` (keys are ASCII). -/
def jsToLower (s : String) : String := String.mk (s.toList.map Char.toLower)

/-- Character class `[mw]` of the block-key pattern, case-insensitive flag. -/
def isMW (c : Char) : Bool := c = 'm' || c = 'w' || c = 'M' || c = 'W'

/-- Decimal digit run: accumulated `parseInt` value and the rest of the input. -/
def digitsVal (acc : Nat) : List Char → Nat × List Char
  | [] => (acc, [])
  | c :: t => if c.isDigit then digitsVal (acc * 10 + (c.toNat - '0'.toNat)) t else (acc, c :: t)

/-- Leftmost match of the fallback pattern `(\d+)(?:-(\d+))?([mw])` with the
case-insensitive flag, as `blockKey.match(...)` finds it: the earliest start
position admitting a match wins, `\d+` is the maximal digit run there (a
shortened run is followed by a digit, which neither `-` nor `[mw]` accepts,
so greedy parsing at each successive start position is exact). -/
def regexFindMW : List Char → Option (Nat × Option Nat × Char)
  | [] => none
  | c :: t =>
    if c.isDigit then
      let p1 := digitsVal 0 (c :: t)
      match p1.2 with
      | [] => regexFindMW t
      | u :: rest2 =>
        if isMW u then some (p1.1, none, u)
        else if u = '-' then
          match rest2 with
          | [] => regexFindMW t
          | d :: _ =>
            if d.isDigit then
              let p2 := digitsVal 0 rest2
              match p2.2 with
              | [] => regexFindMW t
              | v :: _ => if isMW v then some (p1.1, some p2.1, v) else regexFindMW t
            else regexFindMW t
        else regexFindMW t
    else regexFindMW t

/-- `getCanonicalOffsets(blockKey)` of the source: substring match against the
canonical table first, then the `<num>[-<num>](m|w)` fallback pattern, else
`null`. -/
def getCanonicalOffsets (blockKey : String) : Option (ℚ × ℚ) :=
  match CANONICAL_BLOCKS.find? (fun kv =>
      jsIncludes blockKey kv.1 || jsIncludes (jsToLower blockKey) (jsToLower kv.1)) with
  | some kv => some kv.2
  | none =>
    match regexFindMW blockKey.toList with
    | some (d1, od2, u) =>
      let num1 : Int := Int.ofNat d1
      let num2 : Int := Int.ofNat (od2.getD d1)
      let unit := Char.toLower u
      if unit = 'm' then
        some (Rat.ofInt (max num1 num2), Rat.ofInt (min num1 num2))
      else if unit = 'w' then
        some (Rat.divInt (max num1 num2) 4, Rat.divInt (min num1 num2) 4)
      else none
    | none => none

/-- Per-block body of the `recalculateBlockDates` loop: raw week-rounded
dates, floor clamps against `today`, ceiling clamp against the event date,
consistency fix, monotonicity pull to the previous block's end, and the
re-applied consistency fix.  Returns the final (start, end) pair. -/
def scheduleOne (eventDate today : Int) (scaleFactor : ℚ) (offsets : ℚ × ℚ)
    (previousEnd : Option Int) : Int × Int :=
  let startRaw := roundToWeek (addMonths eventDate (Rat.mul offsets.1 scaleFactor))
  let endRaw := roundToWeek (addMonths eventDate (Rat.mul offsets.2 scaleFactor))
  let s1 := if startRaw < today then today + 2 else startRaw
  let e1 := if endRaw < today then today + 3 else endRaw
  let e2 := if e1 > eventDate then eventDate - 1 else e1
  let e3 := if s1 ≥ e2 then s1 + 1 else e2
  let s2 := match previousEnd with
    | some p => if s1 < p then p else s1
    | none => s1
  let e4 := if s2 ≥ e3 then s2 + 1 else e3
  (s2, e4)

/-- Loop of `recalculateBlockDates`, threading `previousEnd` (only updated
for emitted blocks; blocks with an unresolvable key are skipped). -/
def recalcAux (eventDate today : Int) (scaleFactor : ℚ) :
    List Block → Option Int → List BlockOut
  | [], _ => []
  | block :: rest, previousEnd =>
    match getCanonicalOffsets block.key with
    | none => recalcAux eventDate today scaleFactor rest previousEnd
    | some offsets =>
      let se := scheduleOne eventDate today scaleFactor offsets previousEnd
      ⟨block.id, se.1, se.2⟩ :: recalcAux eventDate today scaleFactor rest (some se.2)

/-- `recalculateBlockDates(eventDate, blocks, scaleFactor, today)` of the source. -/
def recalculateBlockDates (eventDate : Int) (blocks : List Block) (scaleFactor : ℚ)
    (today : Int) : List BlockOut :=
  recalcAux eventDate today scaleFactor blocks none

/-- JS `a.localeCompare(b)` as used on task titles: lexical order (the
default locale on ASCII titles orders like code-unit comparison). -/
def jsLocaleCompare (a b : String) : Int := if a < b then -1 else if b < a then 1 else 0

/-- Comparator of the `frontload` branch of `sortTasksForDistribution` (the
final `else` branch, covering `balanced`, repeats it verbatim in the source):
skeleton first, then higher weight, then title order. -/
def frontloadCompare (a b : Task) : Int :=
  if a.is_skeleton ≠ b.is_skeleton then (if a.is_skeleton then -1 else 1)
  else if a.weight ≠ b.weight then b.weight - a.weight
  else jsLocaleCompare a.title b.title

/-- Stable insertion into a sorted prefix: an element keeps its place after
every earlier element the comparator does not strictly order after it. -/
def insertStable {α : Type} (le : α → α → Bool) (x : α) : List α → List α
  | [] => [x]
  | y :: ys => if le y x then y :: insertStable le x ys else x :: y :: ys

/-- `Array.prototype.sort` with a consistent comparator `cmp` (via
`le a b := cmp a b ≤ 0`): the unique stable sort, as a left-to-right stable
insertion sort. -/
def jsSort {α : Type} (le : α → α → Bool) (l : List α) : List α :=
  l.foldl (fun acc x => insertStable le x acc) []

/-- `sortTasksForDistribution(tasks, distribution)` of the source.  The
`frontload` and final `else` branches carry the same comparator; `even`
sorts by title only. -/
def sortTasksForDistribution (tasks : List Task) (distribution : String) : List Task :=
  if distribution = "frontload" then jsSort (fun a b => frontloadCompare a b ≤ 0) tasks
  else if distribution = "even" then jsSort (fun a b => jsLocaleCompare a.title b.title ≤ 0) tasks
  else jsSort (fun a b => frontloadCompare a b ≤ 0) tasks

/-- Locked pass-through entries pushed first by `distributeTasksInBlock`:
locked tasks that already carry a due date. -/
def lockedPassThrough (tasks : List Task) (respectLocks : Bool) : List (String × Int) :=
  (tasks.filter (fun t => respectLocks && t.locked)).filterMap
    (fun t => t.due_date.map (fun dd => (t.id, dd)))

/-- `distributeTasksInBlock(tasks, blockStartDate, blockEndDate, distribution,
respectLocks)` of the source.  `totalDays` is the exact day difference of the
midnight-anchored window bounds, so the JS `Math.ceil` is the identity. -/
def distributeTasksInBlock (tasks : List Task) (blockStartDate blockEndDate : Int)
    (distribution : String) (respectLocks : Bool) : List (String × Int) :=
  let unlocked := tasks.filter (fun t => !respectLocks || !t.locked)
  let result := lockedPassThrough tasks respectLocks
  if unlocked.length = 0 then result
  else
    let sorted := sortTasksForDistribution unlocked distribution
    let totalDays := blockEndDate - blockStartDate
    if totalDays ≤ 1 then
      result ++ sorted.map (fun t => (t.id, blockStartDate))
    else
      let stride : ℚ := Rat.divInt totalDays (Int.ofNat sorted.length)
      result ++ sorted.enum.map (fun p =>
        let offset := if distribution = "frontload" && p.2.is_skeleton then
            Rat.floor (Rat.mul (Rat.mul stride (Rat.ofInt (Int.ofNat p.1))) (Rat.divInt 7 10))
          else Rat.floor (Rat.mul stride (Rat.ofInt (Int.ofNat p.1)))
        let dueDate := blockStartDate + offset
        (p.2.id, if dueDate > blockEndDate then blockEndDate else dueDate))

/-- Distribution formula in the words of the specification, for the already
sorted unlocked tasks: a window of at most one day puts every task on
`start_date`; otherwise the task at sorted index `i` is due
`floor(stride × i)` days after `start_date` — `floor(stride × i × 0.7)` for
a skeleton task under `frontload` — clamped down to `end_date`. -/
def distributeUnlockedSpec (sorted : List Task) (startDate endDate : Int)
    (distribution : String) : List (String × Int) :=
  let totalDays := endDate - startDate
  if totalDays ≤ 1 then sorted.map (fun t => (t.id, startDate))
  else
    let stride : ℚ := Rat.divInt totalDays (Int.ofNat sorted.length)
    sorted.enum.map (fun p =>
      let offset := if distribution = "frontload" && p.2.is_skeleton then
          Rat.floor (Rat.mul (Rat.mul stride (Rat.ofInt (Int.ofNat p.1))) (Rat.divInt 7 10))
        else Rat.floor (Rat.mul stride (Rat.ofInt (Int.ofNat p.1)))
      (p.2.id, min (startDate + offset) endDate))

/-- Lookup in the JS `Map` model: the value stored at a key. -/
def mapGet (m : List (String × Int)) (k : String) : Option Int :=
  (m.find? (fun p => p.1 = k)).map Prod.snd

/-- `Map.set`: update in place when the key exists, else append. -/
def mapSet (m : List (String × Int)) (k : String) (v : Int) : List (String × Int) :=
  if m.any (fun p => p.1 = k) then m.map (fun p => if p.1 = k then (k, v) else p)
  else m ++ [(k, v)]

/-- `new Map(pairs)`: first-insertion key order, last write wins. -/
def mapOfList (l : List (String × Int)) : List (String × Int) :=
  l.foldl (fun m p => mapSet m p.1 p.2) []

/-- `taskDetailsMap.get(id)` where the map was built from `allTasks`
keyed by id: the last task with that id, if any. -/
def tdGet (allTasks : List Task) (id : String) : Option Task :=
  allTasks.foldl (fun acc t => if t.id = id then some t else acc) none

/-- Inner dependency loop of `enforceDependencies` for one task: `taskDate`
is read once before the loop (so it is stale across the loop's own writes),
each dependency with a known date forces `minDate = depDate + 1`, and a
violated bound writes `minDate` back and flags the pass as changed. -/
def procDeps (taskId : String) (taskDate : Int) :
    List String → List (String × Int) → List (String × Int) × Bool
  | [], m => (m, false)
  | depId :: rest, m =>
    match mapGet m depId with
    | none => procDeps taskId taskDate rest m
    | some depDate =>
      let minDate := depDate + 1
      if taskDate < minDate then
        match procDeps taskId taskDate rest (mapSet m taskId minDate) with
        | (m2, _) => (m2, true)
      else procDeps taskId taskDate rest m

/-- Per-task step of a pass: skipped when the task has no details entry or
no dependency list. -/
def procOneTask (allTasks : List Task) (m : List (String × Int)) (taskId : String) :
    List (String × Int) × Bool :=
  match tdGet allTasks taskId with
  | none => (m, false)
  | some details =>
    match details.depends_on_task_ids with
    | none => (m, false)
    | some deps => procDeps taskId ((mapGet m taskId).getD 0) deps m

/-- One full pass of the `while` loop over the proposed update list. -/
def onePass (allTasks : List Task) :
    List (String × Int) → List (String × Int) → List (String × Int) × Bool
  | [], m => (m, false)
  | u :: rest, m =>
    match procOneTask allTasks m u.1 with
    | (m1, c1) =>
      match onePass allTasks rest m1 with
      | (m2, c2) => (m2, c1 || c2)

/-- Iteration of passes with the remaining-pass budget as fuel, returning
the final map, whether a pass reported no changes (convergence), and the
number of passes performed. -/
def enforceIter (tasks : List (String × Int)) (allTasks : List Task) :
    Nat → List (String × Int) → List (String × Int) × Bool × Nat
  | 0, m => (m, false, 0)
  | Nat.succ n, m =>
    match onePass allTasks tasks m with
    | (m1, c1) =>
      if c1 then
        match enforceIter tasks allTasks n m1 with
        | (m2, cv, k) => (m2, cv, k + 1)
      else (m1, true, 1)

/-- `enforceDependencies(tasks, allTasks)` of the source: up to
`maxIterations = 100` passes starting from the map of proposed updates;
the map's entries are returned in insertion order. -/
def enforceDependencies (tasks : List (String × Int)) (allTasks : List Task) :
    List (String × Int) :=
  (enforceIter tasks allTasks 100 (mapOfList tasks)).1

/-- Timeline row joined with its event: the engine reads only the event date. -/
structure TimelineRow where
  eventDate : Int
deriving Repr, DecidableEq

/-- Load results for the three fetches of the handler; `none` models a fetch
error or missing row. -/
structure Db where
  timeline : Option TimelineRow
  blocks : Option (List Block)
  tasks : Option (List Task)
deriving Repr, DecidableEq

/-- Persistence effects issued by the handler, in order. -/
inductive WriteOp where
  | blockWrite (id : String) (start_date end_date : Int)
  | taskWrite (id : String) (due_date : Int)
  | timelineWrite (scale_factor : ℚ)
  | auditInsert (lead_time_months : Int) (scale_factor : ℚ)
      (distribution : String) (respect_locks : Bool)
deriving Repr, DecidableEq

/-- Response of the handler together with the writes it issued. -/
structure HandlerResult where
  status : Nat
  success : Bool
  blocks : List BlockOut
  tasks : List (String × Int)
  writes : List WriteOp
deriving Repr, DecidableEq

/-- `Deno.serve` handler of the source for a `Recalculate(timelineId,
options)` call: 400 on a missing (empty) timeline id, 404 when the timeline
row is absent, 500 when the block or task load fails; otherwise it schedules,
distributes, enforces dependencies, and issues the block, task, timeline and
audit writes before answering 200. -/
def handleRecalculate (timelineId : String) (respectLocks : Bool) (distribution : String)
    (db : Db) (today : Int) : HandlerResult :=
  if timelineId = "" then ⟨400, false, [], [], []⟩
  else
    match db.timeline with
    | none => ⟨404, false, [], [], []⟩
    | some tl =>
      let eventDate := tl.eventDate
      let leadTimeMonths := calculateLeadTimeMonths eventDate today
      let scaleFactor := calculateScaleFactor leadTimeMonths
      match db.blocks with
      | none => ⟨500, false, [], [], []⟩
      | some blocks =>
        match db.tasks with
        | none => ⟨500, false, [], [], []⟩
        | some tasks =>
          let blocksWithTasks := blocks.map (fun b =>
            { b with tasks := tasks.filter (fun t => t.block_id = b.id) })
          let recalculatedBlocks :=
            recalculateBlockDates eventDate blocksWithTasks scaleFactor today
          let allTaskUpdates := blocksWithTasks.foldl (fun acc block =>
            match recalculatedBlocks.find? (fun r => r.id = block.id) with
            | none => acc
            | some blockResult =>
              if block.tasks.isEmpty then acc
              else acc ++ distributeTasksInBlock block.tasks blockResult.start_date
                blockResult.end_date distribution respectLocks) []
          let finalTasks := enforceDependencies allTaskUpdates tasks
          ⟨200, true, recalculatedBlocks, finalTasks,
            recalculatedBlocks.map (fun r => WriteOp.blockWrite r.id r.start_date r.end_date)
              ++ finalTasks.map (fun p => WriteOp.taskWrite p.1 p.2)
              ++ [WriteOp.timelineWrite scaleFactor,
                  WriteOp.auditInsert leadTimeMonths scaleFactor distribution respectLocks]⟩

/-- Concrete input for the scheduler claims: a single canonical block on a
timeline whose event is today (epoch day 4, a Monday), so the lead time and
scale factor are 0. -/
def blockTwelve : Block := ⟨"b1", "12m", "Twelve months", 1, none, none, []⟩

/-- Block with a key neither in the canonical table nor matching the
fallback pattern. -/
def blockBad : Block := ⟨"b99", "99x", "Unknown", 2, none, none, []⟩

/-- Locked task with a stored due date (day 5) depending on `"B"`. -/
def taskLockedA : Task :=
  ⟨"A", "Task A", 1, false, true, some 5, false, some ["B"], 1, "b1"⟩

/-- Locked task with a stored due date (day 10) and no dependencies. -/
def taskLockedB : Task :=
  ⟨"B", "Task B", 1, false, true, some 10, false, none, 2, "b1"⟩

/-- Unlocked skeleton task of weight 2. -/
def taskSkelA : Task :=
  ⟨"S1", "Skel 1", 2, true, false, none, false, none, 1, "b1"⟩

/-- Unlocked skeleton task of weight 1. -/
def taskSkelB : Task :=
  ⟨"S2", "Skel 2", 1, true, false, none, false, none, 2, "b1"⟩

/-- Unlocked non-skeleton task. -/
def taskPlainC : Task :=
  ⟨"C", "Task C", 1, false, false, none, false, none, 3, "b1"⟩

/-- Locked task without a stored due date. -/
def taskLockedNoDate : Task :=
  ⟨"D", "Task D", 1, false, true, none, false, none, 4, "b1"⟩

/-- Task on a dependency cycle: depends on `"B"`. -/
def taskCycA : Task :=
  ⟨"A", "Cyc A", 1, false, false, none, false, some ["B"], 1, "b1"⟩

/-- Task on a dependency cycle: depends on `"A"`. -/
def taskCycB : Task :=
  ⟨"B", "Cyc B", 1, false, false, none, false, some ["A"], 2, "b1"⟩

theorem scheduleOne_start_lt_end (eventDate today : Int) (scaleFactor : ℚ)
    (offsets : ℚ × ℚ) (previousEnd : Option Int) :
    (scheduleOne eventDate today scaleFactor offsets previousEnd).1 <
      (scheduleOne eventDate today scaleFactor offsets previousEnd).2 := by
  unfold scheduleOne
  cases previousEnd <;> dsimp only <;> split_ifs <;> omega

theorem scheduleOne_today_le_start (eventDate today : Int) (scaleFactor : ℚ)
    (offsets : ℚ × ℚ) (previousEnd : Option Int) :
    today ≤ (scheduleOne eventDate today scaleFactor offsets previousEnd).1 := by
  unfold scheduleOne
  cases previousEnd <;> dsimp only <;> split_ifs <;> omega

theorem scheduleOne_prev_le_start (eventDate today : Int) (scaleFactor : ℚ)
    (offsets : ℚ × ℚ) (p : Int) :
    p ≤ (scheduleOne eventDate today scaleFactor offsets (some p)).1 := by
  unfold scheduleOne
  dsimp only
  split_ifs <;> omega

theorem scheduleOne_end_bound (eventDate today : Int) (scaleFactor : ℚ)
    (offsets : ℚ × ℚ) (previousEnd : Option Int) :
    (scheduleOne eventDate today scaleFactor offsets previousEnd).2 ≤ eventDate ∨
      (scheduleOne eventDate today scaleFactor offsets previousEnd).2 =
        (scheduleOne eventDate today scaleFactor offsets previousEnd).1 + 1 := by
  unfold scheduleOne
  cases previousEnd <;> dsimp only <;> split_ifs <;> omega

theorem recalcAux_mem_bounds (eventDate today : Int) (scaleFactor : ℚ) :
    ∀ (bs : List Block) (prev : Option Int) (o : BlockOut),
      o ∈ recalcAux eventDate today scaleFactor bs prev →
      o.start_date < o.end_date ∧ today ≤ o.start_date ∧
        (o.end_date ≤ eventDate ∨ o.end_date = o.start_date + 1) := by
  intro bs
  induction bs with
  | nil => intro prev o h; simp [recalcAux] at h
  | cons b rest ih =>
    intro prev o h
    rw [recalcAux] at h
    cases hoff : getCanonicalOffsets b.key with
    | none => rw [hoff] at h; exact ih prev o h
    | some offsets =>
      rw [hoff] at h
      rcases List.mem_cons.mp h with hh | ht
      · subst hh
        refine ⟨scheduleOne_start_lt_end .., scheduleOne_today_le_start .., ?_⟩
        exact scheduleOne_end_bound ..
      · exact ih _ o ht

theorem recalcAux_chain (eventDate today : Int) (scaleFactor : ℚ) :
    ∀ (bs : List Block) (prev : Option Int),
      List.Chain' (fun a b => a.end_date ≤ b.start_date)
        (recalcAux eventDate today scaleFactor bs prev) ∧
      (∀ o, (recalcAux eventDate today scaleFactor bs prev).head? = some o →
        ∀ p, prev = some p → p ≤ o.start_date) := by
  intro bs
  induction bs with
  | nil =>
    intro prev
    refine ⟨by simp [recalcAux], ?_⟩
    intro o h
    simp [recalcAux] at h
  | cons b rest ih =>
    intro prev
    rw [recalcAux]
    cases hoff : getCanonicalOffsets b.key with
    | none => exact ih prev
    | some offsets =>
      dsimp only
      constructor
      · rw [List.chain'_cons']
        refine ⟨?_, (ih _).1⟩
        intro y hy
        have := (ih (some (scheduleOne eventDate today scaleFactor offsets prev).2)).2 y hy
          ((scheduleOne eventDate today scaleFactor offsets prev).2) rfl
        exact this
      · intro o h p hp
        subst hp
        rw [List.head?_cons, Option.some_inj] at h
        subst h
        exact scheduleOne_prev_le_start ..

unseal Rat.mul Rat.add Rat.sub in
/-- C1 counterexample: with the event on day 4 (= today) and one `"12m"`
block, `recalculateBlockDates` emits the window (6, 7), whose `end_date` 7
exceeds the event date 4 — the consistency fix `end = start + 1` runs after
the event-date ceiling clamp, so `end_date ≤ event_date` fails. -/
theorem recalc_end_after_event_cex :
    recalculateBlockDates 4 [blockTwelve] 0 4 = [⟨"b1", 6, 7⟩] ∧ ¬((7 : Int) ≤ 4) := by
  decide

/-- C1 (amended): every block window returned by `recalculateBlockDates`
satisfies `start_date < end_date` and `start_date ≥ today`; `end_date ≤
event_date` holds except when the consistency fix forced `end_date =
start_date + 1`, which can land past an imminent event date. -/
theorem recalculateBlockDates_window_bounds (eventDate : Int) (blocks : List Block)
    (scaleFactor : ℚ) (today : Int) :
    ∀ o ∈ recalculateBlockDates eventDate blocks scaleFactor today,
      o.start_date < o.end_date ∧ today ≤ o.start_date ∧
        (o.end_date ≤ eventDate ∨ o.end_date = o.start_date + 1) := by
  intro o ho
  exact recalcAux_mem_bounds eventDate today scaleFactor blocks none o ho

unseal Rat.mul Rat.add Rat.sub in
/-- Witness for the amended C1 theorem at the concrete single-block input. -/
theorem recalculateBlockDates_window_bounds_witness :
    (6 : Int) < 7 ∧ (4 : Int) ≤ 6 ∧ ((7 : Int) ≤ 4 ∨ (7 : Int) = 6 + 1) :=
  recalculateBlockDates_window_bounds 4 [blockTwelve] 0 4 ⟨"b1", 6, 7⟩ (by decide)

/-- C3: consecutive entries of the scheduler's output (blocks taken in
order, skipped blocks omitted) have the later block's `start_date` at or
after the earlier block's `end_date`. -/
theorem recalculateBlockDates_consecutive (eventDate : Int) (blocks : List Block)
    (scaleFactor : ℚ) (today : Int) :
    List.Chain' (fun a b => a.end_date ≤ b.start_date)
      (recalculateBlockDates eventDate blocks scaleFactor today) :=
  (recalcAux_chain eventDate today scaleFactor blocks none).1

theorem mem_insertStable {α : Type} (le : α → α → Bool) (x : α) :
    ∀ (l : List α) (a : α), a ∈ insertStable le x l ↔ a = x ∨ a ∈ l := by
  intro l
  induction l with
  | nil => intro a; simp [insertStable]
  | cons y ys ih =>
    intro a
    rw [insertStable]
    split
    · rw [List.mem_cons, ih, List.mem_cons]
      tauto
    · simp only [List.mem_cons]

theorem length_insertStable {α : Type} (le : α → α → Bool) (x : α) :
    ∀ l : List α, (insertStable le x l).length = l.length + 1 := by
  intro l
  induction l with
  | nil => rfl
  | cons y ys ih =>
    rw [insertStable]
    split
    · simp [ih]
    · simp

theorem jsSort_foldl_mem {α : Type} (le : α → α → Bool) :
    ∀ (l acc : List α) (a : α),
      a ∈ l.foldl (fun acc x => insertStable le x acc) acc ↔ a ∈ acc ∨ a ∈ l := by
  intro l
  induction l with
  | nil => intro acc a; simp
  | cons x xs ih =>
    intro acc a
    rw [List.foldl_cons, ih, mem_insertStable, List.mem_cons]
    tauto

theorem mem_jsSort {α : Type} (le : α → α → Bool) (l : List α) (a : α) :
    a ∈ jsSort le l ↔ a ∈ l := by
  rw [jsSort, jsSort_foldl_mem]
  simp

theorem jsSort_foldl_length {α : Type} (le : α → α → Bool) :
    ∀ (l acc : List α),
      (l.foldl (fun acc x => insertStable le x acc) acc).length = acc.length + l.length := by
  intro l
  induction l with
  | nil => intro acc; simp
  | cons x xs ih =>
    intro acc
    rw [List.foldl_cons, ih, length_insertStable, List.length_cons]
    omega

theorem length_jsSort {α : Type} (le : α → α → Bool) (l : List α) :
    (jsSort le l).length = l.length := by
  rw [jsSort, jsSort_foldl_length]
  simp

theorem mem_sortTasksForDistribution (tasks : List Task) (d : String) (t : Task) :
    t ∈ sortTasksForDistribution tasks d ↔ t ∈ tasks := by
  unfold sortTasksForDistribution
  split_ifs <;> exact mem_jsSort ..

theorem length_sortTasksForDistribution (tasks : List Task) (d : String) :
    (sortTasksForDistribution tasks d).length = tasks.length := by
  unfold sortTasksForDistribution
  split_ifs <;> exact length_jsSort ..

theorem sortTasksForDistribution_nil (d : String) :
    sortTasksForDistribution [] d = [] := by
  unfold sortTasksForDistribution
  split_ifs <;> rfl

theorem distributeUnlockedSpec_nil (s e : Int) (d : String) :
    distributeUnlockedSpec [] s e d = [] := by
  simp [distributeUnlockedSpec]

theorem distribute_eq_spec (tasks : List Task) (s e : Int) (d : String) (rl : Bool) :
    distributeTasksInBlock tasks s e d rl =
      lockedPassThrough tasks rl ++
        distributeUnlockedSpec
          (sortTasksForDistribution (tasks.filter (fun t => !rl || !t.locked)) d) s e d := by
  by_cases h0 : (tasks.filter (fun t => !rl || !t.locked)).length = 0
  · rw [distributeTasksInBlock]
    simp only []
    rw [if_pos h0, List.length_eq_zero.mp h0, sortTasksForDistribution_nil,
      distributeUnlockedSpec_nil, List.append_nil]
  · rw [distributeTasksInBlock, distributeUnlockedSpec]
    simp only []
    rw [if_neg h0]
    split_ifs with h1
    · rfl
    · refine congrArg _ ?_
      refine List.map_congr_left ?_
      intro p _
      dsimp only
      split_ifs with hsk <;> refine Prod.ext rfl ?_ <;> dsimp only <;>
        rw [min_def] <;> split_ifs <;> omega

/-- C6: `distributeTasksInBlock` emits the locked pass-through entries
followed by the sorted unlocked tasks dated by the spec formula: every
unlocked task on `start_date` when the window spans at most one day,
otherwise `start_date + floor(stride × i)` days for the task at sorted
index `i` — `floor(stride × i × 0.7)` for a skeleton task under
`frontload` — clamped down to `end_date`. -/
theorem distributeTasksInBlock_formula (tasks : List Task) (s e : Int) (d : String)
    (rl : Bool) :
    distributeTasksInBlock tasks s e d rl =
      lockedPassThrough tasks rl ++
        distributeUnlockedSpec
          (sortTasksForDistribution (tasks.filter (fun t => !rl || !t.locked)) d) s e d :=
  distribute_eq_spec tasks s e d rl

theorem sort_balanced_eq_frontload (tasks : List Task) :
    sortTasksForDistribution tasks "balanced" = sortTasksForDistribution tasks "frontload" := by
  simp [sortTasksForDistribution]

theorem distributeUnlockedSpec_no_skeleton (sorted : List Task) (s e : Int)
    (h : ∀ t ∈ sorted, t.is_skeleton = false) :
    distributeUnlockedSpec sorted s e "balanced" =
      distributeUnlockedSpec sorted s e "frontload" := by
  unfold distributeUnlockedSpec
  dsimp only
  split_ifs with h1
  · rfl
  · refine List.map_congr_left ?_
    intro p hp
    have hmem : p.2 ∈ sorted := by
      obtain ⟨i, t⟩ := p
      have := List.mem_enum hp
      simp only at this
      rw [this.2]
      exact List.getElem_mem this.1
    have hskel := h p.2 hmem
    simp [hskel]

unseal Rat.mul Rat.add Rat.sub in
/-- C7 counterexample: on two unlocked skeleton tasks in a 10-day window,
`balanced` and `frontload` give different due dates (the 0.7 skeleton factor
applies only under `frontload`), so the distributor does not treat the two
strategies identically. -/
theorem distribute_balanced_ne_frontload_cex :
    distributeTasksInBlock [taskSkelA, taskSkelB] 0 10 "balanced" true ≠
      distributeTasksInBlock [taskSkelA, taskSkelB] 0 10 "frontload" true := by
  decide

/-- C7 (amended): the sorter treats `balanced` and `frontload` identically
(same sorted order for every task list), and the distributor agrees on the
due dates whenever no task is a skeleton task; for skeleton tasks the
`frontload` strategy applies the extra 0.7 offset factor. -/
theorem frontload_balanced_relation (tasks : List Task) :
    sortTasksForDistribution tasks "balanced" = sortTasksForDistribution tasks "frontload" ∧
    ∀ (s e : Int) (rl : Bool), (∀ t ∈ tasks, t.is_skeleton = false) →
      distributeTasksInBlock tasks s e "balanced" rl =
        distributeTasksInBlock tasks s e "frontload" rl := by
  refine ⟨sort_balanced_eq_frontload tasks, ?_⟩
  intro s e rl h
  rw [distribute_eq_spec, distribute_eq_spec, sort_balanced_eq_frontload]
  refine congrArg _ ?_
  refine distributeUnlockedSpec_no_skeleton _ s e ?_
  intro t ht
  have := (mem_sortTasksForDistribution _ _ t).mp ht
  exact h t (List.mem_filter.mp this).1

unseal Rat.mul Rat.add Rat.sub in
/-- Witness for the amended C7 theorem on a single non-skeleton task. -/
theorem frontload_balanced_relation_witness :
    sortTasksForDistribution [taskPlainC] "balanced" =
        sortTasksForDistribution [taskPlainC] "frontload" ∧
    distributeTasksInBlock [taskPlainC] 0 10 "balanced" true =
        distributeTasksInBlock [taskPlainC] 0 10 "frontload" true :=
  ⟨(frontload_balanced_relation [taskPlainC]).1,
   (frontload_balanced_relation [taskPlainC]).2 0 10 true (by decide)⟩

/-- C10: the distributor is total and its division is guarded: with no
unlocked task it returns just the locked pass-throughs before the stride
division would be reached, and in the dividing branch the divisor — the
sorted unlocked task count — is positive. -/
theorem distribute_division_guard (tasks : List Task) (s e : Int) (d : String)
    (rl : Bool) :
    ((tasks.filter (fun t => !rl || !t.locked)) = [] →
      distributeTasksInBlock tasks s e d rl = lockedPassThrough tasks rl) ∧
    ((tasks.filter (fun t => !rl || !t.locked)) ≠ [] →
      0 < (sortTasksForDistribution (tasks.filter (fun t => !rl || !t.locked)) d).length) := by
  constructor
  · intro h
    rw [distributeTasksInBlock]
    simp only []
    rw [if_pos (by rw [h]; rfl)]
  · intro h
    rw [length_sortTasksForDistribution]
    exact List.length_pos.mpr h

/-- Witness for the C10 theorem: a lone locked task takes the early return;
a lone unlocked task makes the divisor 1. -/
theorem distribute_division_guard_witness :
    (distributeTasksInBlock [taskLockedB] 0 10 "frontload" true =
        lockedPassThrough [taskLockedB] true) ∧
    0 < (sortTasksForDistribution
          ([taskSkelA].filter (fun t => !true || !t.locked)) "frontload").length :=
  ⟨(distribute_division_guard [taskLockedB] 0 10 "frontload" true).1 (by decide),
   (distribute_division_guard [taskSkelA] 0 10 "frontload" true).2 (by decide)⟩

theorem mapGet_of_mem_nodup :
    ∀ (m : List (String × Int)), (m.map Prod.fst).Nodup →
      ∀ p ∈ m, mapGet m p.1 = some p.2 := by
  intro m
  induction m with
  | nil => intro _ p hp; simp at hp
  | cons q rest ih =>
    intro hnd p hp
    rw [List.map_cons, List.nodup_cons] at hnd
    rcases List.mem_cons.mp hp with rfl | hp'
    · simp [mapGet]
    · have hne : ¬ (q.1 = p.1) := by
        intro hq
        exact hnd.1 (hq ▸ List.mem_map_of_mem Prod.fst hp')
      rw [mapGet, List.find?_cons_of_neg _ (by simpa using hne)]
      exact ih hnd.2 p hp'

theorem mem_keys_mapSet (m : List (String × Int)) (k : String) (v : Int) :
    ∀ x ∈ (mapSet m k v).map Prod.fst, x ∈ m.map Prod.fst ∨ x = k := by
  intro x hx
  rw [mapSet] at hx
  split_ifs at hx with h
  · obtain ⟨p, hp, hpx⟩ := List.mem_map.mp hx
    obtain ⟨q, hq, hqp⟩ := List.mem_map.mp hp
    left
    by_cases hk : q.1 = k
    · rw [if_pos hk] at hqp
      subst hqp
      simp only at hpx
      subst hpx
      exact hk ▸ List.mem_map_of_mem Prod.fst hq
    · rw [if_neg hk] at hqp
      subst hqp
      subst hpx
      exact List.mem_map_of_mem Prod.fst hq
  · rw [List.map_append, List.mem_append] at hx
    rcases hx with hx | hx
    · exact Or.inl hx
    · simp at hx
      exact Or.inr hx

theorem nodup_keys_mapSet (m : List (String × Int)) (k : String) (v : Int)
    (hnd : (m.map Prod.fst).Nodup) : ((mapSet m k v).map Prod.fst).Nodup := by
  rw [mapSet]
  split_ifs with h
  · have heq : ((m.map (fun p => if p.1 = k then (k, v) else p)).map Prod.fst) =
        m.map Prod.fst := by
      rw [List.map_map]
      refine List.map_congr_left ?_
      intro p _
      by_cases hk : p.1 = k
      · simp [hk]
      · simp [hk]
    rw [heq]
    exact hnd
  · rw [List.map_append]
    refine List.Nodup.append hnd (by simp) ?_
    intro x hx hx'
    simp only [List.map_cons, List.map_nil, List.mem_singleton] at hx'
    subst hx'
    obtain ⟨p, hp, hpx⟩ := List.mem_map.mp hx
    exact h (List.any_eq_true.mpr ⟨p, hp, by simp [hpx]⟩)

theorem keys_mapOfList_aux :
    ∀ (l m : List (String × Int)),
      (∀ x ∈ (l.foldl (fun m p => mapSet m p.1 p.2) m).map Prod.fst,
        x ∈ m.map Prod.fst ∨ x ∈ l.map Prod.fst) ∧
      ((m.map Prod.fst).Nodup →
        ((l.foldl (fun m p => mapSet m p.1 p.2) m).map Prod.fst).Nodup) := by
  intro l
  induction l with
  | nil => intro m; exact ⟨fun x hx => Or.inl hx, fun h => h⟩
  | cons q rest ih =>
    intro m
    rw [List.foldl_cons]
    constructor
    · intro x hx
      rcases (ih (mapSet m q.1 q.2)).1 x hx with hx' | hx'
      · rcases mem_keys_mapSet m q.1 q.2 x hx' with hm | hk
        · exact Or.inl hm
        · exact Or.inr (by simp [hk])
      · exact Or.inr (by simp [hx'])
    · intro hnd
      exact (ih (mapSet m q.1 q.2)).2 (nodup_keys_mapSet m q.1 q.2 hnd)

theorem keys_mapOfList (l : List (String × Int)) :
    (∀ x ∈ (mapOfList l).map Prod.fst, x ∈ l.map Prod.fst) ∧
      ((mapOfList l).map Prod.fst).Nodup := by
  refine ⟨?_, (keys_mapOfList_aux l []).2 (by simp)⟩
  intro x hx
  rcases (keys_mapOfList_aux l []).1 x hx with h | h
  · simp at h
  · exact h

theorem procDeps_eq_false (tid : String) (td : Int) :
    ∀ (deps : List String) (m r : List (String × Int)),
      procDeps tid td deps m = (r, false) →
      r = m ∧ ∀ d ∈ deps, ∀ dd, mapGet m d = some dd → ¬ td < dd + 1 := by
  intro deps
  induction deps with
  | nil =>
    intro m r h
    simp only [procDeps] at h
    exact ⟨(Prod.mk.injEq .. ▸ h).1.symm, by simp⟩
  | cons depId rest ih =>
    intro m r h
    rw [procDeps] at h
    cases hg : mapGet m depId with
    | none =>
      rw [hg] at h
      obtain ⟨hr, hrest⟩ := ih m r h
      refine ⟨hr, ?_⟩
      intro d hd dd hdd
      rcases List.mem_cons.mp hd with rfl | hd'
      · rw [hg] at hdd; cases hdd
      · exact hrest d hd' dd hdd
    | some depDate =>
      rw [hg] at h
      dsimp only at h
      by_cases hlt : td < depDate + 1
      · rw [if_pos hlt] at h
        exfalso
        cases hrec : procDeps tid td rest (mapSet m tid (depDate + 1)) with
        | mk m2 c2 =>
          rw [hrec] at h
          have := (Prod.mk.injEq .. ▸ h).2
          cases this
      · rw [if_neg hlt] at h
        obtain ⟨hr, hrest⟩ := ih m r h
        refine ⟨hr, ?_⟩
        intro d hd dd hdd
        rcases List.mem_cons.mp hd with rfl | hd'
        · rw [hg] at hdd
          cases hdd
          exact hlt
        · exact hrest d hd' dd hdd

theorem procOneTask_eq_false (allTasks : List Task) (m : List (String × Int))
    (tid : String) (r : List (String × Int))
    (h : procOneTask allTasks m tid = (r, false)) :
    r = m ∧ ∀ details, tdGet allTasks tid = some details →
      ∀ deps, details.depends_on_task_ids = some deps →
      ∀ d ∈ deps, ∀ dd, mapGet m d = some dd →
      ¬ ((mapGet m tid).getD 0) < dd + 1 := by
  rw [procOneTask] at h
  cases hd : tdGet allTasks tid with
  | none =>
    rw [hd] at h
    dsimp only at h
    refine ⟨(Prod.mk.injEq .. ▸ h).1.symm, ?_⟩
    intro details hdet
    exact absurd hdet (by simp)
  | some details =>
    rw [hd] at h
    dsimp only at h
    cases hdeps : details.depends_on_task_ids with
    | none =>
      rw [hdeps] at h
      dsimp only at h
      refine ⟨(Prod.mk.injEq .. ▸ h).1.symm, ?_⟩
      intro det hdet deps hdeps'
      cases hdet
      rw [hdeps] at hdeps'
      exact absurd hdeps' (by simp)
    | some deps =>
      rw [hdeps] at h
      dsimp only at h
      obtain ⟨hr, hp⟩ := procDeps_eq_false tid _ deps m r h
      refine ⟨hr, ?_⟩
      intro det hdet deps' hdeps' d hdm dd hdd
      cases hdet
      rw [hdeps] at hdeps'
      cases hdeps'
      exact hp d hdm dd hdd

theorem onePass_nil (allTasks : List Task) (m : List (String × Int)) :
    onePass allTasks [] m = (m, false) := rfl

theorem onePass_cons (allTasks : List Task) (u : String × Int)
    (rest : List (String × Int)) (m : List (String × Int)) :
    onePass allTasks (u :: rest) m =
      ((onePass allTasks rest (procOneTask allTasks m u.1).1).1,
        (procOneTask allTasks m u.1).2 ||
          (onePass allTasks rest (procOneTask allTasks m u.1).1).2) := rfl

theorem enforceIter_zero (tasks : List (String × Int)) (allTasks : List Task)
    (m : List (String × Int)) : enforceIter tasks allTasks 0 m = (m, false, 0) := rfl

theorem enforceIter_succ (tasks : List (String × Int)) (allTasks : List Task)
    (n : Nat) (m : List (String × Int)) :
    enforceIter tasks allTasks (n + 1) m =
      if (onePass allTasks tasks m).2 then
        ((enforceIter tasks allTasks n (onePass allTasks tasks m).1).1,
         (enforceIter tasks allTasks n (onePass allTasks tasks m).1).2.1,
         (enforceIter tasks allTasks n (onePass allTasks tasks m).1).2.2 + 1)
      else ((onePass allTasks tasks m).1, true, 1) := rfl

theorem onePass_eq_false (allTasks : List Task) :
    ∀ (us : List (String × Int)) (m r : List (String × Int)),
      onePass allTasks us m = (r, false) →
      r = m ∧ ∀ u ∈ us, ∀ details, tdGet allTasks u.1 = some details →
        ∀ deps, details.depends_on_task_ids = some deps →
        ∀ d ∈ deps, ∀ dd, mapGet m d = some dd →
        ¬ ((mapGet m u.1).getD 0) < dd + 1 := by
  intro us
  induction us with
  | nil =>
    intro m r h
    rw [onePass_nil] at h
    exact ⟨(Prod.mk.injEq .. ▸ h).1.symm, by simp⟩
  | cons u rest ih =>
    intro m r h
    rw [onePass_cons] at h
    have hr : (onePass allTasks rest (procOneTask allTasks m u.1).1).1 = r :=
      (Prod.mk.injEq .. ▸ h).1
    have hc : ((procOneTask allTasks m u.1).2 ||
        (onePass allTasks rest (procOneTask allTasks m u.1).1).2) = false :=
      (Prod.mk.injEq .. ▸ h).2
    have hc1 : (procOneTask allTasks m u.1).2 = false := (Bool.or_eq_false_iff.mp hc).1
    have hsplit1 : procOneTask allTasks m u.1 = ((procOneTask allTasks m u.1).1, false) := by
      rw [← hc1]
    obtain ⟨hm1, hcheck1⟩ := procOneTask_eq_false allTasks m u.1 _ hsplit1
    rw [hm1] at hr hc
    have hc2 : (onePass allTasks rest m).2 = false := (Bool.or_eq_false_iff.mp hc).2
    have hsplit2 : onePass allTasks rest m = ((onePass allTasks rest m).1, false) := by
      rw [← hc2]
    obtain ⟨hm2, hcheckrest⟩ := ih m _ hsplit2
    refine ⟨by rw [← hr, hm2], ?_⟩
    intro u' hu'
    rcases List.mem_cons.mp hu' with rfl | hu''
    · exact hcheck1
    · exact hcheckrest u' hu''

theorem enforceIter_converged (tasks : List (String × Int)) (allTasks : List Task) :
    ∀ (fuel : Nat) (m mf : List (String × Int)) (k : Nat),
      enforceIter tasks allTasks fuel m = (mf, true, k) →
      onePass allTasks tasks mf = (mf, false) := by
  intro fuel
  induction fuel with
  | zero =>
    intro m mf k h
    rw [enforceIter_zero] at h
    have : (false, (0 : Nat)) = (true, k) := (Prod.mk.injEq .. ▸ h).2
    exact absurd ((Prod.mk.injEq .. ▸ this).1) (by simp)
  | succ n ih =>
    intro m mf k h
    rw [enforceIter_succ] at h
    by_cases hc : (onePass allTasks tasks m).2 = true
    · rw [if_pos hc] at h
      have h1 : (enforceIter tasks allTasks n (onePass allTasks tasks m).1).1 = mf :=
        (Prod.mk.injEq .. ▸ h).1
      have h2 : (enforceIter tasks allTasks n (onePass allTasks tasks m).1).2.1 = true :=
        (Prod.mk.injEq .. ▸ ((Prod.mk.injEq .. ▸ h).2)).1
      refine ih (onePass allTasks tasks m).1 mf
        (enforceIter tasks allTasks n (onePass allTasks tasks m).1).2.2 ?_
      have heta : enforceIter tasks allTasks n (onePass allTasks tasks m).1 =
          ((enforceIter tasks allTasks n (onePass allTasks tasks m).1).1,
           (enforceIter tasks allTasks n (onePass allTasks tasks m).1).2.1,
           (enforceIter tasks allTasks n (onePass allTasks tasks m).1).2.2) := rfl
      rw [h1, h2] at heta
      exact heta
    · rw [if_neg hc] at h
      have h1 : (onePass allTasks tasks m).1 = mf := (Prod.mk.injEq .. ▸ h).1
      have hc' : (onePass allTasks tasks m).2 = false := by
        cases hh : (onePass allTasks tasks m).2
        · rfl
        · exact absurd hh hc
      have hsplit : onePass allTasks tasks m = (mf, false) := by
        rw [← h1, ← hc']
      obtain ⟨hm, -⟩ := onePass_eq_false allTasks tasks m mf hsplit
      rw [hm] at hsplit ⊢
      exact hsplit

theorem enforceIter_passes_le (tasks : List (String × Int)) (allTasks : List Task) :
    ∀ (fuel : Nat) (m : List (String × Int)),
      (enforceIter tasks allTasks fuel m).2.2 ≤ fuel := by
  intro fuel
  induction fuel with
  | zero => intro m; rw [enforceIter_zero]
  | succ n ih =>
    intro m
    rw [enforceIter_succ]
    split_ifs with hc
    · dsimp only
      have := ih (onePass allTasks tasks m).1
      omega
    · simp

theorem keys_procDeps (tid : String) (td : Int) :
    ∀ (deps : List String) (m : List (String × Int)),
      (∀ x ∈ (procDeps tid td deps m).1.map Prod.fst,
        x ∈ m.map Prod.fst ∨ x = tid) ∧
      ((m.map Prod.fst).Nodup → ((procDeps tid td deps m).1.map Prod.fst).Nodup) := by
  intro deps
  induction deps with
  | nil => intro m; simp only [procDeps]; exact ⟨fun x hx => Or.inl hx, fun h => h⟩
  | cons depId rest ih =>
    intro m
    rw [procDeps]
    cases hg : mapGet m depId with
    | none => exact ih m
    | some depDate =>
      dsimp only
      by_cases hlt : td < depDate + 1
      · rw [if_pos hlt]
        cases hrec : procDeps tid td rest (mapSet m tid (depDate + 1)) with
        | mk m2 c2 =>
          have hih := ih (mapSet m tid (depDate + 1))
          rw [hrec] at hih
          constructor
          · intro x hx
            rcases hih.1 x hx with hx' | hx'
            · rcases mem_keys_mapSet m tid (depDate + 1) x hx' with hm | hk
              · exact Or.inl hm
              · exact Or.inr hk
            · exact Or.inr hx'
          · intro hnd
            exact hih.2 (nodup_keys_mapSet m tid (depDate + 1) hnd)
      · rw [if_neg hlt]
        exact ih m

theorem keys_procOneTask (allTasks : List Task) (m : List (String × Int)) (tid : String) :
    (∀ x ∈ (procOneTask allTasks m tid).1.map Prod.fst,
      x ∈ m.map Prod.fst ∨ x = tid) ∧
    ((m.map Prod.fst).Nodup → ((procOneTask allTasks m tid).1.map Prod.fst).Nodup) := by
  rw [procOneTask]
  cases tdGet allTasks tid with
  | none => exact ⟨fun x hx => Or.inl hx, fun h => h⟩
  | some details =>
    dsimp only
    cases details.depends_on_task_ids with
    | none => exact ⟨fun x hx => Or.inl hx, fun h => h⟩
    | some deps =>
      dsimp only
      exact keys_procDeps tid _ deps m

theorem keys_onePass (allTasks : List Task) :
    ∀ (us m : List (String × Int)),
      (∀ x ∈ (onePass allTasks us m).1.map Prod.fst,
        x ∈ m.map Prod.fst ∨ x ∈ us.map Prod.fst) ∧
      ((m.map Prod.fst).Nodup → ((onePass allTasks us m).1.map Prod.fst).Nodup) := by
  intro us
  induction us with
  | nil => intro m; rw [onePass_nil]; exact ⟨fun x hx => Or.inl hx, fun h => h⟩
  | cons u rest ih =>
    intro m
    rw [onePass_cons]
    dsimp only
    have hk1 := keys_procOneTask allTasks m u.1
    have hk2 := ih (procOneTask allTasks m u.1).1
    constructor
    · intro x hx
      rcases hk2.1 x hx with hx' | hx'
      · rcases hk1.1 x hx' with hm | hu
        · exact Or.inl hm
        · exact Or.inr (by simp [hu])
      · exact Or.inr (by simp [hx'])
    · intro hnd
      exact hk2.2 (hk1.2 hnd)

theorem keys_enforceIter (tasks : List (String × Int)) (allTasks : List Task) :
    ∀ (fuel : Nat) (m : List (String × Int)),
      (∀ x ∈ (enforceIter tasks allTasks fuel m).1.map Prod.fst,
        x ∈ m.map Prod.fst ∨ x ∈ tasks.map Prod.fst) ∧
      ((m.map Prod.fst).Nodup →
        ((enforceIter tasks allTasks fuel m).1.map Prod.fst).Nodup) := by
  intro fuel
  induction fuel with
  | zero =>
    intro m
    rw [enforceIter_zero]
    exact ⟨fun x hx => Or.inl hx, fun h => h⟩
  | succ n ih =>
    intro m
    rw [enforceIter_succ]
    split_ifs with hc
    · dsimp only
      have hk1 := keys_onePass allTasks tasks m
      have hk2 := ih (onePass allTasks tasks m).1
      refine ⟨fun x hx => ?_, fun hnd => hk2.2 (hk1.2 hnd)⟩
      rcases hk2.1 x hx with hx' | hx'
      · exact hk1.1 x hx'
      · exact Or.inr hx'
    · dsimp only
      exact keys_onePass allTasks tasks m

theorem keys_enforceDependencies (tasks : List (String × Int)) (allTasks : List Task) :
    (∀ x ∈ (enforceDependencies tasks allTasks).map Prod.fst, x ∈ tasks.map Prod.fst) ∧
    ((enforceDependencies tasks allTasks).map Prod.fst).Nodup := by
  rw [enforceDependencies]
  have hk := keys_enforceIter tasks allTasks 100 (mapOfList tasks)
  refine ⟨?_, hk.2 (keys_mapOfList tasks).2⟩
  intro x hx
  rcases hk.1 x hx with hx' | hx'
  · exact (keys_mapOfList tasks).1 x hx'
  · exact hx'

/-- C4: when the pass iteration converges (a pass reports no changes within
the 100-pass cap), every entry of the output of `enforceDependencies` is
strictly later than each of its dependencies that also has a due date in
the output: `due_date(task) ≥ due_date(dependency) + 1`. -/
theorem enforceDependencies_converged_correct (tasks : List (String × Int))
    (allTasks : List Task)
    (hconv : (enforceIter tasks allTasks 100 (mapOfList tasks)).2.1 = true) :
    ∀ p ∈ enforceDependencies tasks allTasks,
      ∀ details, tdGet allTasks p.1 = some details →
      ∀ deps, details.depends_on_task_ids = some deps →
      ∀ depId ∈ deps, ∀ depDue,
        mapGet (enforceDependencies tasks allTasks) depId = some depDue →
        depDue + 1 ≤ p.2 := by
  intro p hp details hdet deps hdeps depId hdepmem depDue hdd
  have hsplit : enforceIter tasks allTasks 100 (mapOfList tasks) =
      ((enforceIter tasks allTasks 100 (mapOfList tasks)).1, true,
       (enforceIter tasks allTasks 100 (mapOfList tasks)).2.2) := by
    rw [← hconv]
  have hfix := enforceIter_converged tasks allTasks 100 (mapOfList tasks) _ _ hsplit
  obtain ⟨-, hchecks⟩ :=
    onePass_eq_false allTasks tasks (enforceDependencies tasks allTasks)
      (enforceDependencies tasks allTasks) hfix
  have hnd := (keys_enforceDependencies tasks allTasks).2
  have hget : mapGet (enforceDependencies tasks allTasks) p.1 = some p.2 :=
    mapGet_of_mem_nodup _ hnd p hp
  have hkey : p.1 ∈ (enforceDependencies tasks allTasks).map Prod.fst :=
    List.mem_map_of_mem Prod.fst hp
  obtain ⟨u, hu, hu1⟩ :=
    List.mem_map.mp ((keys_enforceDependencies tasks allTasks).1 p.1 hkey)
  have := hchecks u hu details (by rw [hu1]; exact hdet) deps hdeps depId hdepmem
    depDue hdd
  rw [hu1, hget] at this
  simpa using Int.not_lt.mp this

/-- Witness for the C4 theorem: task `"A"` (due 0) depends on `"B"` (due
10); the run converges with `"A"` pushed to 11 = 10 + 1. -/
theorem enforceDependencies_converged_correct_witness : (10 : Int) + 1 ≤ 11 :=
  enforceDependencies_converged_correct [("A", 0), ("B", 10)]
    [taskLockedA, taskLockedB] (by decide) ("A", 11) (by decide) taskLockedA
    (by decide) ["B"] (by decide) "B" (by decide) 10 (by decide)

/-- C5: `enforceDependencies` is total and bounded: on every input —
including dependency cycles — it performs at most 100 passes and returns a
best-effort assignment whose entries all stem from the proposed update
list. -/
theorem enforceDependencies_bounded (tasks : List (String × Int))
    (allTasks : List Task) :
    (enforceIter tasks allTasks 100 (mapOfList tasks)).2.2 ≤ 100 ∧
    ∀ p ∈ enforceDependencies tasks allTasks, p.1 ∈ tasks.map Prod.fst := by
  refine ⟨enforceIter_passes_le tasks allTasks 100 (mapOfList tasks), ?_⟩
  intro p hp
  exact (keys_enforceDependencies tasks allTasks).1 p.1 (List.mem_map_of_mem Prod.fst hp)

/-- Witness for the C5 theorem on a dependency cycle (`"A"` and `"B"`
depend on each other): the run hits the 100-pass cap and still returns a
result. -/
theorem enforceDependencies_bounded_witness :
    (enforceIter [("A", 0), ("B", 1)] [taskCycA, taskCycB] 100
        (mapOfList [("A", 0), ("B", 1)])).2.2 ≤ 100 ∧
    ("A" : String) ∈ [(("A" : String), (0 : Int)), ("B", 1)].map Prod.fst :=
  ⟨(enforceDependencies_bounded [("A", 0), ("B", 1)] [taskCycA, taskCycB]).1,
   (enforceDependencies_bounded [("A", 0), ("B", 1)] [taskCycA, taskCycB]).2
     ("A", 200) (by decide)⟩

/-- C2 counterexample: with `respect_locks = true`, locked task `"A"`
(stored due date 5, depending on locked task `"B"` with due date 10) passes
through distribution with date 5, but dependency enforcement raises it to
11, so its final due date is not its stored date. -/
theorem locked_task_changed_by_enforcement_cex :
    mapGet (enforceDependencies
        (distributeTasksInBlock [taskLockedA, taskLockedB] 0 10 "frontload" true)
        [taskLockedA, taskLockedB]) "A" = some 11 ∧
      ¬ (some (11 : Int) = some (5 : Int)) := by
  decide

theorem spec_ids (sorted : List Task) (s e : Int) (d : String) :
    ∀ x ∈ (distributeUnlockedSpec sorted s e d).map Prod.fst,
      ∃ u ∈ sorted, u.id = x := by
  intro x hx
  rw [distributeUnlockedSpec] at hx
  dsimp only at hx
  split_ifs at hx with h1
  · obtain ⟨q, hq, hqx⟩ := List.mem_map.mp hx
    obtain ⟨u, hu, hux⟩ := List.mem_map.mp hq
    exact ⟨u, hu, by rw [← hux] at hqx; exact hqx⟩
  · obtain ⟨q, hq, hqx⟩ := List.mem_map.mp hx
    obtain ⟨p, hp, hpx⟩ := List.mem_map.mp hq
    refine ⟨p.2, ?_, ?_⟩
    · obtain ⟨i, t⟩ := p
      have := List.mem_enum hp
      simp only at this
      rw [this.2]
      exact List.getElem_mem this.1
    · rw [← hpx] at hqx
      exact hqx

theorem lockedPassThrough_ids (tasks : List Task) (rl : Bool) :
    ∀ x ∈ (lockedPassThrough tasks rl).map Prod.fst,
      ∃ u ∈ tasks, u.id = x ∧ (rl && u.locked) = true ∧ u.due_date ≠ none := by
  intro x hx
  obtain ⟨q, hq, hqx⟩ := List.mem_map.mp hx
  obtain ⟨u, hu, huq⟩ := List.mem_filterMap.mp hq
  obtain ⟨hut, hul⟩ := List.mem_filter.mp hu
  cases hdue : u.due_date with
  | none => rw [hdue] at huq; cases huq
  | some dd =>
    rw [hdue] at huq
    simp only [Option.map_some'] at huq
    cases huq
    exact ⟨u, hut, by rw [← hqx], hul, by rw [hdue]; simp⟩

theorem distribute_ids (tasks : List Task) (s e : Int) (d : String) (rl : Bool) :
    ∀ x ∈ (distributeTasksInBlock tasks s e d rl).map Prod.fst,
      ∃ u ∈ tasks, u.id = x ∧
        ((rl && u.locked) = true ∧ u.due_date ≠ none ∨ (!rl || !u.locked) = true) := by
  intro x hx
  rw [distribute_eq_spec, List.map_append, List.mem_append] at hx
  rcases hx with hx | hx
  · obtain ⟨u, hu, hux, hlock, hdue⟩ := lockedPassThrough_ids tasks rl x hx
    exact ⟨u, hu, hux, Or.inl ⟨hlock, hdue⟩⟩
  · obtain ⟨u, hu, hux⟩ := spec_ids _ s e d x hx
    have := (mem_sortTasksForDistribution _ _ u).mp hu
    obtain ⟨hut, hunl⟩ := List.mem_filter.mp this
    exact ⟨u, hut, hux, Or.inr hunl⟩

/-- C2 (amended): with `respect_locks = true`, every locked task that has a
stored due date passes through distribution with exactly that date (though
dependency enforcement may later raise it), and a locked task without a
stored due date is absent from the final recalibrated output, provided task
ids are distinct. -/
theorem locked_task_passthrough (tasks : List Task) (s e : Int) (d : String)
    (allTasks : List Task) :
    (∀ t ∈ tasks, t.locked = true → ∀ dd, t.due_date = some dd →
      (t.id, dd) ∈ distributeTasksInBlock tasks s e d true) ∧
    (∀ t ∈ tasks, t.locked = true → t.due_date = none →
      (tasks.map Task.id).Nodup →
      t.id ∉ (enforceDependencies
          (distributeTasksInBlock tasks s e d true) allTasks).map Prod.fst) := by
  constructor
  · intro t ht hlock dd hdd
    have hmem : (t.id, dd) ∈ lockedPassThrough tasks true := by
      refine List.mem_filterMap.mpr ⟨t, ?_, ?_⟩
      · exact List.mem_filter.mpr ⟨ht, by simp [hlock]⟩
      · rw [hdd]; rfl
    rw [distribute_eq_spec]
    exact List.mem_append_left _ hmem
  · intro t ht hlock hdue hnodup hmem
    have h1 : t.id ∈ (distributeTasksInBlock tasks s e d true).map Prod.fst :=
      (keys_enforceDependencies _ allTasks).1 t.id hmem
    obtain ⟨u, hu, huid, hcase⟩ := distribute_ids tasks s e d true t.id h1
    have hut : u = t := List.inj_on_of_nodup_map hnodup hu ht huid
    subst hut
    rcases hcase with ⟨-, hdue'⟩ | hunl
    · exact hdue' hdue
    · rw [hlock] at hunl
      simp at hunl

/-- Witness for the amended C2 theorem: locked `"A"` (due 5) appears in the
distribution output with date 5; locked `"D"` without a date is absent from
the final output. -/
theorem locked_task_passthrough_witness :
    ((("A" : String), (5 : Int)) ∈
      distributeTasksInBlock [taskLockedA, taskLockedB] 0 10 "frontload" true) ∧
    ("D" : String) ∉ (enforceDependencies
        (distributeTasksInBlock [taskLockedA, taskLockedB, taskLockedNoDate] 0 10
          "frontload" true) []).map Prod.fst :=
  ⟨(locked_task_passthrough [taskLockedA, taskLockedB] 0 10 "frontload" []).1
     taskLockedA (by decide) (by decide) 5 (by decide),
   (locked_task_passthrough [taskLockedA, taskLockedB, taskLockedNoDate] 0 10
       "frontload" []).2 taskLockedNoDate (by decide) (by decide) (by decide)
     (by decide)⟩

theorem recalcAux_filter_resolvable (eventDate today : Int) (scaleFactor : ℚ) :
    ∀ (bs : List Block) (prev : Option Int),
      recalcAux eventDate today scaleFactor bs prev =
        recalcAux eventDate today scaleFactor
          (bs.filter (fun b => (getCanonicalOffsets b.key).isSome)) prev := by
  intro bs
  induction bs with
  | nil => intro prev; rfl
  | cons b rest ih =>
    intro prev
    rw [List.filter_cons]
    cases hoff : getCanonicalOffsets b.key with
    | none =>
      rw [recalcAux, hoff]
      simp only [hoff, Option.isSome_none, Bool.false_eq_true, if_false]
      exact ih prev
    | some offsets =>
      simp only [hoff, Option.isSome_some, if_true]
      rw [recalcAux, hoff, recalcAux, hoff]
      dsimp only
      rw [ih]

theorem recalcAux_mem_src (eventDate today : Int) (scaleFactor : ℚ) :
    ∀ (bs : List Block) (prev : Option Int) (o : BlockOut),
      o ∈ recalcAux eventDate today scaleFactor bs prev →
      ∃ b' ∈ bs, b'.id = o.id ∧ (getCanonicalOffsets b'.key).isSome = true := by
  intro bs
  induction bs with
  | nil => intro prev o h; simp [recalcAux] at h
  | cons b rest ih =>
    intro prev o h
    rw [recalcAux] at h
    cases hoff : getCanonicalOffsets b.key with
    | none =>
      rw [hoff] at h
      obtain ⟨b', hb', hid, hsome⟩ := ih prev o h
      exact ⟨b', List.mem_cons_of_mem b hb', hid, hsome⟩
    | some offsets =>
      rw [hoff] at h
      rcases List.mem_cons.mp h with hh | ht
      · subst hh
        exact ⟨b, List.mem_cons_self b rest, rfl, by rw [hoff]; rfl⟩
      · obtain ⟨b', hb', hid, hsome⟩ := ih _ o ht
        exact ⟨b', List.mem_cons_of_mem b hb', hid, hsome⟩

theorem mem_blocksWithTasks (bl : List Block) (ts : List Task) (b'' : Block)
    (h : b'' ∈ bl.map (fun b =>
      { b with tasks := ts.filter (fun t => t.block_id = b.id) })) :
    ∃ orig ∈ bl, b''.id = orig.id ∧ b''.key = orig.key := by
  obtain ⟨orig, ho, heq⟩ := List.mem_map.mp h
  exact ⟨orig, ho, by rw [← heq], by rw [← heq]⟩

/-- C8: a block key matching neither the canonical table nor the fallback
pattern (such as `"99x"`) resolves to no offsets; such a block is omitted
from the scheduler's output (so no write ever targets it), the remaining
blocks are scheduled exactly as if the block were absent, and the handler
still answers 200 with `success = true`. -/
theorem unresolvable_block_skipped (eventDate today : Int) (scaleFactor : ℚ)
    (blocks : List Block) :
    getCanonicalOffsets "99x" = none ∧
    (recalculateBlockDates eventDate blocks scaleFactor today =
      recalculateBlockDates eventDate
        (blocks.filter (fun b => (getCanonicalOffsets b.key).isSome)) scaleFactor today) ∧
    (∀ b : Block, getCanonicalOffsets b.key = none →
      (∀ b' ∈ blocks, b'.id = b.id → getCanonicalOffsets b'.key = none) →
      b.id ∉ (recalculateBlockDates eventDate blocks scaleFactor today).map BlockOut.id) ∧
    (∀ (timelineId : String) (respectLocks : Bool) (distribution : String)
        (tl : TimelineRow) (bl : List Block) (ts : List Task) (b : Block),
      timelineId ≠ "" → b ∈ bl → getCanonicalOffsets b.key = none →
      (∀ b' ∈ bl, b'.id = b.id → getCanonicalOffsets b'.key = none) →
      (handleRecalculate timelineId respectLocks distribution
          ⟨some tl, some bl, some ts⟩ today).status = 200 ∧
      (handleRecalculate timelineId respectLocks distribution
          ⟨some tl, some bl, some ts⟩ today).success = true ∧
      ∀ s e : Int, WriteOp.blockWrite b.id s e ∉
        (handleRecalculate timelineId respectLocks distribution
          ⟨some tl, some bl, some ts⟩ today).writes) := by
  refine ⟨by decide, ?_, ?_, ?_⟩
  · exact recalcAux_filter_resolvable eventDate today scaleFactor blocks none
  · intro b hnone hid hmem
    obtain ⟨o, ho, hoid⟩ := List.mem_map.mp hmem
    obtain ⟨b', hb', hbid, hsome⟩ :=
      recalcAux_mem_src eventDate today scaleFactor blocks none o ho
    rw [hid b' hb' (by rw [hbid, hoid])] at hsome
    simp at hsome
  · intro tid rl dist tl bl ts b htid _ hnone hid
    refine ⟨by simp [handleRecalculate, htid], by simp [handleRecalculate, htid], ?_⟩
    intro s e hmem
    simp only [handleRecalculate, if_neg htid] at hmem
    rw [List.mem_append, List.mem_append] at hmem
    rcases hmem with (hmem | hmem) | hmem
    · obtain ⟨o, ho, hoeq⟩ := List.mem_map.mp hmem
      have hoid : o.id = b.id := by
        have := (WriteOp.blockWrite.injEq .. ▸ hoeq).1
        exact this
      rw [recalculateBlockDates] at ho
      obtain ⟨b'', hb'', hbid, hsome⟩ := recalcAux_mem_src _ _ _ _ _ o ho
      obtain ⟨orig, horig, hid'', hkey''⟩ := mem_blocksWithTasks bl ts b'' hb''
      rw [hkey''] at hsome
      rw [hid orig horig (by rw [← hid'', hbid, hoid])] at hsome
      simp at hsome
    · obtain ⟨p, _, hpeq⟩ := List.mem_map.mp hmem
      cases hpeq
    · rcases List.mem_cons.mp hmem with hh | hh
      · cases hh
      · rcases List.mem_cons.mp hh with hh' | hh'
        · cases hh'
        · simp at hh'

unseal Rat.mul Rat.add Rat.sub in
/-- Witness for the C8 theorem: the `"99x"` block alongside a `"12m"` block
on a timeline with a loaded event; the bad block produces no output entry,
no block write targets it, and the call succeeds. -/
theorem unresolvable_block_skipped_witness :
    getCanonicalOffsets "99x" = none ∧
    (recalculateBlockDates 100 [blockBad, blockTwelve] 0 0 =
      recalculateBlockDates 100
        ([blockBad, blockTwelve].filter (fun b => (getCanonicalOffsets b.key).isSome)) 0 0) ∧
    ("b99" : String) ∉ (recalculateBlockDates 100 [blockBad, blockTwelve] 0 0).map
        BlockOut.id ∧
    ((handleRecalculate "t1" true "frontload"
        ⟨some ⟨100⟩, some [blockBad, blockTwelve], some []⟩ 0).status = 200 ∧
      (handleRecalculate "t1" true "frontload"
        ⟨some ⟨100⟩, some [blockBad, blockTwelve], some []⟩ 0).success = true ∧
      ∀ s e : Int, WriteOp.blockWrite "b99" s e ∉
        (handleRecalculate "t1" true "frontload"
          ⟨some ⟨100⟩, some [blockBad, blockTwelve], some []⟩ 0).writes) :=
  ⟨(unresolvable_block_skipped 100 0 0 [blockBad, blockTwelve]).1,
   (unresolvable_block_skipped 100 0 0 [blockBad, blockTwelve]).2.1,
   (unresolvable_block_skipped 100 0 0 [blockBad, blockTwelve]).2.2.1 blockBad
     (by decide) (by decide),
   (unresolvable_block_skipped 100 0 0 [blockBad, blockTwelve]).2.2.2 "t1" true
     "frontload" ⟨100⟩ [blockBad, blockTwelve] [] blockBad (by decide) (by decide)
     (by decide) (by decide)⟩

/-- C9: the handler answers 400 on a missing timeline id, 404 when the
timeline row is absent, and 500 when the block load or the task load fails,
and in every one of these failure cases it issues no write at all. -/
theorem handler_failure_modes (timelineId : String) (respectLocks : Bool)
    (distribution : String) (db : Db) (today : Int) :
    (timelineId = "" →
      (handleRecalculate timelineId respectLocks distribution db today).status = 400 ∧
      (handleRecalculate timelineId respectLocks distribution db today).writes = []) ∧
    (timelineId ≠ "" → db.timeline = none →
      (handleRecalculate timelineId respectLocks distribution db today).status = 404 ∧
      (handleRecalculate timelineId respectLocks distribution db today).writes = []) ∧
    (∀ tl, timelineId ≠ "" → db.timeline = some tl → db.blocks = none →
      (handleRecalculate timelineId respectLocks distribution db today).status = 500 ∧
      (handleRecalculate timelineId respectLocks distribution db today).writes = []) ∧
    (∀ tl bl, timelineId ≠ "" → db.timeline = some tl → db.blocks = some bl →
      db.tasks = none →
      (handleRecalculate timelineId respectLocks distribution db today).status = 500 ∧
      (handleRecalculate timelineId respectLocks distribution db today).writes = []) := by
  refine ⟨?_, ?_, ?_, ?_⟩
  · intro h
    constructor <;> simp [handleRecalculate, h]
  · intro h1 h2
    constructor <;> simp [handleRecalculate, h1, h2]
  · intro tl h1 h2 h3
    constructor <;> simp [handleRecalculate, h1, h2, h3]
  · intro tl bl h1 h2 h3 h4
    constructor <;> simp [handleRecalculate, h1, h2, h3, h4]

/-- Witness for the C9 theorem: concrete calls hitting the 400, 404 and the
two 500 load-failure branches, none issuing a write. -/
theorem handler_failure_modes_witness :
    ((handleRecalculate "" true "frontload" ⟨none, none, none⟩ 0).status = 400 ∧
      (handleRecalculate "" true "frontload" ⟨none, none, none⟩ 0).writes = []) ∧
    ((handleRecalculate "t1" true "frontload" ⟨none, none, none⟩ 0).status = 404 ∧
      (handleRecalculate "t1" true "frontload" ⟨none, none, none⟩ 0).writes = []) ∧
    ((handleRecalculate "t1" true "frontload" ⟨some ⟨100⟩, none, none⟩ 0).status = 500 ∧
      (handleRecalculate "t1" true "frontload" ⟨some ⟨100⟩, none, none⟩ 0).writes = []) ∧
    ((handleRecalculate "t1" true "frontload"
        ⟨some ⟨100⟩, some [], none⟩ 0).status = 500 ∧
      (handleRecalculate "t1" true "frontload"
        ⟨some ⟨100⟩, some [], none⟩ 0).writes = []) :=
  ⟨(handler_failure_modes "" true "frontload" ⟨none, none, none⟩ 0).1 rfl,
   (handler_failure_modes "t1" true "frontload" ⟨none, none, none⟩ 0).2.1
     (by decide) rfl,
   (handler_failure_modes "t1" true "frontload" ⟨some ⟨100⟩, none, none⟩ 0).2.2.1
     ⟨100⟩ (by decide) rfl rfl,
   (handler_failure_modes "t1" true "frontload" ⟨some ⟨100⟩, some [], none⟩ 0).2.2.2
     ⟨100⟩ [] (by decide) rfl rfl rfl⟩

end ClientView
